import Mathlib

/-!
Verification development for the `hcl` help-text extraction pipeline.

Strings are modelled as `List Char` (the Rust code operates on valid UTF-8
text; byte-level operations in the source are reflected faithfully, e.g.
string length comparisons use UTF-8 byte length via `Char.utf8Size`).
Each definition mirrors one function of the Rust source
(`src/types.rs`, `src/parser.rs`, `src/layout.rs`, `src/postprocessor.rs`,
`src/io_handler.rs`).
-/

set_option maxHeartbeats 1000000

namespace Hcl

/-- Rust `char::is_whitespace` (the Unicode White_Space property). -/
def rustIsWs (c : Char) : Bool :=
  c = ' ' || c = '\t' || c = '\n' || c = '\r' ||
  c.val = 0x0B || c.val = 0x0C || c.val = 0x85 || c.val = 0xA0 ||
  c.val = 0x1680 || (0x2000 ≤ c.val && c.val ≤ 0x200A) ||
  c.val = 0x2028 || c.val = 0x2029 || c.val = 0x202F || c.val = 0x205F ||
  c.val = 0x3000

/-- Rust `u8::is_ascii_whitespace`, applied to a character that occupies a
single UTF-8 byte (space, tab, newline, form feed, carriage return). -/
def isAsciiWs (c : Char) : Bool :=
  c = ' ' || c = '\t' || c = '\n' || c.val = 0x0C || c = '\r'

/-- UTF-8 byte length of a string, as Rust `str::len`. -/
def utf8Len (s : List Char) : Nat :=
  (s.map Char.utf8Size).sum

/-- Rust `str::trim_start` (drop leading Unicode whitespace). -/
def trimStart (s : List Char) : List Char :=
  s.dropWhile rustIsWs

/-- Rust `str::trim_end` (drop trailing Unicode whitespace). -/
def trimEnd (s : List Char) : List Char :=
  (s.reverse.dropWhile rustIsWs).reverse

/-- Rust `str::trim`. -/
def trim (s : List Char) : List Char :=
  trimEnd (trimStart s)

/-- Split a string at every newline character, keeping all the pieces
(including empty ones); the backbone of the `lines` iterators. -/
def splitOnNl : List Char → List (List Char)
  | [] => [[]]
  | c :: cs =>
    if c = '\n' then [] :: splitOnNl cs
    else
      match splitOnNl cs with
      | [] => [[c]]
      | l :: ls => (c :: l) :: ls

/-- Strip a single trailing carriage return (the CR of a CRLF terminator). -/
def stripCR : List Char → List Char
  | [] => []
  | c :: rest =>
    match rest with
    | [] => if c = '\r' then [] else [c]
    | _ :: _ => c :: stripCR rest

/-- Post-process the raw newline split the way Rust `str::lines` /
`bstr`'s line iterator do: every terminated line has a trailing CR of a
CRLF stripped, and the empty piece after a final newline is dropped. -/
def linesAux : List (List Char) → List (List Char)
  | [] => []
  | [l] => if l.isEmpty then [] else [l]
  | l :: ls => stripCR l :: linesAux ls

/-- Rust `str::lines` (also `bstr::ByteSlice::lines`): lines are terminated
by LF or CRLF, the terminators are not part of the lines, and a final
terminator does not produce an extra empty line. -/
def rustLines (s : List Char) : List (List Char) :=
  linesAux (splitOnNl s)

/-- Join pieces with a single newline separator (the `push('\n')` between
lines pattern of the source). -/
def joinNl : List (List Char) → List Char
  | [] => []
  | [l] => l
  | l :: ls => l ++ '\n' :: joinNl ls

/-- Join whitespace-split tokens with single spaces (Rust `join(" ")`). -/
def joinSp : List (List Char) → List Char
  | [] => []
  | [l] => l
  | l :: ls => l ++ ' ' :: joinSp ls

/-- Join name texts with pipes (Rust `join("|")`). -/
def joinPipe : List (List Char) → List Char
  | [] => []
  | [l] => l
  | l :: ls => l ++ '|' :: joinPipe ls

/-- Accumulator loop for `splitWs`: `cur` holds the current word reversed. -/
def splitWsAux (cur : List Char) : List Char → List (List Char)
  | [] => if cur.isEmpty then [] else [cur.reverse]
  | c :: cs =>
    if rustIsWs c then
      if cur.isEmpty then splitWsAux [] cs
      else cur.reverse :: splitWsAux [] cs
    else splitWsAux (c :: cur) cs

/-- Rust `str::split_whitespace`: maximal runs of non-whitespace characters,
no empty tokens. -/
def splitWs (s : List Char) : List (List Char) :=
  splitWsAux [] s

/-- Rust `s.split([',', '/', '|'])`: split at every separator character,
keeping empty pieces. -/
def splitSeps : List Char → List (List Char)
  | [] => [[]]
  | c :: cs =>
    if c = ',' || c = '/' || c = '|' then [] :: splitSeps cs
    else
      match splitSeps cs with
      | [] => [[c]]
      | l :: ls => (c :: l) :: ls

/-! ## Data model (`src/types.rs`) -/

/-- The five flag classifications of `types.rs`, in Rust declaration order
(which fixes the derived `Ord`). -/
inductive OptNameType where
  | longType
  | shortType
  | oldType
  | doubleDashAlone
  | singleDashAlone
deriving DecidableEq

/-- Rank of an `OptNameType` under the derived Rust `Ord` (declaration
order). -/
def typeRank : OptNameType → Nat
  | .longType => 0
  | .shortType => 1
  | .oldType => 2
  | .doubleDashAlone => 3
  | .singleDashAlone => 4

/-- One flag spelling (`types.rs` `OptName`). -/
structure OptName where
  raw : List Char
  opt_type : OptNameType
deriving DecidableEq

/-- One option record (`types.rs` `Opt`). -/
structure Opt where
  names : List OptName
  argument : List Char
  description : List Char
deriving DecidableEq

/-- The recursive command tree (`types.rs` `Command`). -/
inductive Command where
  | mk (name description usage : List Char) (options : List Opt)
      (subcommands : List Command) (version : List Char)

/-- The options field of a `Command`. -/
def Command.options : Command → List Opt
  | .mk _ _ _ o _ _ => o

/-- The subcommands field of a `Command`. -/
def Command.subcommands : Command → List Command
  | .mk _ _ _ _ s _ => s

/-- Lexicographic order on strings by code point, which coincides with the
byte-wise ordering Rust's `String: Ord` uses on UTF-8 data. -/
def strLe : List Char → List Char → Bool
  | [], _ => true
  | _ :: _, [] => false
  | a :: as_, b :: bs =>
    if a.val < b.val then true
    else if b.val < a.val then false
    else strLe as_ bs

/-- The derived `Ord` on `OptName` compares `(raw, opt_type)`
lexicographically (`types.rs` `impl Ord for OptName`). -/
def nameLe (a b : OptName) : Bool :=
  if a.raw = b.raw then typeRank a.opt_type ≤ typeRank b.opt_type
  else strLe a.raw b.raw

/-- Insert into a sorted list (helper for the stable `Vec::sort`). -/
def insertName (a : OptName) : List OptName → List OptName
  | [] => [a]
  | b :: bs => if nameLe a b then a :: b :: bs else b :: insertName a bs

/-- Rust `Vec::sort` on `OptName` (stable, by `(raw, opt_type)`). -/
def sortNames : List OptName → List OptName
  | [] => []
  | a :: rest => insertName a (sortNames rest)

/-- Rust `Vec::dedup`: remove consecutive duplicates, keeping the first of
each run. -/
def dedupAdj : List OptName → List OptName
  | [] => []
  | a :: rest =>
    match rest with
    | [] => [a]
    | b :: _ => if a = b then dedupAdj rest else a :: dedupAdj rest

/-- `OptName::determine_type` (`types.rs` lines 69–78). String length is
UTF-8 byte length, as in Rust; `starts_with("--")` is the first two
characters being dashes (`take 2`), `starts_with('-')` is the head being
a dash. -/
def determine_type (s : List Char) : Option OptNameType :=
  if s = ['-'] then some .singleDashAlone
  else if s = ['-', '-'] then some .doubleDashAlone
  else if s.take 2 = ['-', '-'] then some .longType
  else if s.head? = some '-' ∧ utf8Len s = 2 then some .shortType
  else if s.head? = some '-' then some .oldType
  else none

/-- `OptName::from_text` (`types.rs` lines 61–67). -/
def OptName.from_text (s : List Char) : Option OptName :=
  match determine_type s with
  | some t => some ⟨s, t⟩
  | none => none

/-! ## Option line parsing (`src/parser.rs`) -/

namespace Parser

/-- Whether a (trimmed) string starts with a dash (`starts_with('-')`). -/
def startsDash (s : List Char) : Bool :=
  s.head? = some '-'

/-- The `opt_end` scan of `Parser::preprocess` (`parser.rs` lines 52–62):
walk the whitespace tokens with their index, setting `opt_end` to
`idx + 1` when the token starts with a dash or is the first token, or
else when it contains an equals sign or does not start with a dash;
otherwise stop. -/
def optEndGo (idx acc : Nat) : List (List Char) → Nat
  | [] => acc
  | p :: ps =>
    if startsDash p || idx = 0 then optEndGo (idx + 1) (idx + 1) ps
    else if p.contains '=' || !startsDash p then optEndGo (idx + 1) (idx + 1) ps
    else acc

/-- `Parser::preprocess`'s main loop over the lines of a block
(`parser.rs` lines 37–90), producing (option text, description text)
pairs. The source loop advances its index by 2 when it takes a
description from the following line; that is modelled by a `skip` flag
that drops the already-consumed line on the next step. -/
def preprocessGo : Bool → List (List Char) → List (List Char × List Char)
  | _, [] => []
  | true, _ :: rest => preprocessGo false rest
  | false, line :: rest =>
    let trimmed := trimStart line
    if !startsDash trimmed then preprocessGo false rest
    else
      let parts := splitWs trimmed
      let opt_end := optEndGo 0 0 parts
      if opt_end > 0 ∧ opt_end < parts.length then
        (joinSp (parts.take opt_end), joinSp (parts.drop opt_end)) ::
          preprocessGo false rest
      else if opt_end > 0 then
        match rest with
        | [] => [(trimmed, [])]
        | next :: _ =>
          let desc := if !startsDash (trimStart next) then trim next else []
          if desc.isEmpty then (trimmed, []) :: preprocessGo false rest
          else (trimmed, desc) :: preprocessGo true rest
      else preprocessGo false rest

/-- `Parser::preprocess` (`parser.rs` lines 32–93). -/
def preprocess (s : List Char) : List (List Char × List Char) :=
  preprocessGo false (rustLines s)

/-- Inner loop of `Parser::parse_opt_names`: the whitespace tokens of one
separator group that start with a dash and classify successfully. -/
def namesOfPart (part : List Char) : List OptName :=
  (splitWs (trim part)).filterMap fun word =>
    if startsDash word then OptName.from_text word else none

/-- `Parser::parse_opt_names` (`parser.rs` lines 110–131): collect
candidates from every comma/slash/pipe group, then sort and dedup. -/
def parse_opt_names (s : List Char) : List OptName :=
  dedupAdj (sortNames ((splitSeps s).flatMap namesOfPart))

/-- `Parser::extract_arg_from_part` (`parser.rs` lines 145–158). -/
def extract_arg_from_part (s : List Char) : Option (List Char) :=
  let words := splitWs s
  if words.length < 2 then none
  else
    let arg_part := joinSp words.tail
    if arg_part.isEmpty || arg_part = ['.'] then none
    else some arg_part

/-- Loop of `Parser::parse_opt_arg` over separator groups. -/
def optArgGo : List (List Char) → List Char
  | [] => []
  | p :: ps =>
    match extract_arg_from_part (trim p) with
    | some arg => if !arg.isEmpty then arg else optArgGo ps
    | none => optArgGo ps

/-- `Parser::parse_opt_arg` (`parser.rs` lines 133–143). -/
def parse_opt_arg (s : List Char) : List Char :=
  optArgGo (splitSeps s)

/-- `Parser::parse_with_opt_part` (`parser.rs` lines 95–108). -/
def parse_with_opt_part (opt_str desc_str : List Char) : List Opt :=
  let names := parse_opt_names opt_str
  if names.isEmpty then []
  else [⟨names, parse_opt_arg opt_str, desc_str⟩]

/-- Push the options of one pair that are not yet in `seen`, returning the
pushed options together with the updated `seen` set (the
`HashSet::insert` pattern of `Parser::parse_line`). -/
def insertNew (seen : List Opt) : List Opt → List Opt × List Opt
  | [] => ([], seen)
  | o :: rest =>
    if o ∈ seen then insertNew seen rest
    else
      let r := insertNew (o :: seen) rest
      (o :: r.1, r.2)

/-- Loop of `Parser::parse_line` over the preprocessed pairs. -/
def parseLineGo (seen : List Opt) : List (List Char × List Char) → List Opt
  | [] => []
  | pr :: ps =>
    let r := insertNew seen (parse_with_opt_part pr.1 pr.2)
    r.1 ++ parseLineGo r.2 ps

/-- `Parser::parse_line` (`parser.rs` lines 17–30). -/
def parse_line (s : List Char) : List Opt :=
  parseLineGo [] (preprocess s)

end Parser

/-! ## Block segmentation and orchestration (`src/layout.rs`) -/

namespace Layout

/-- The scanning loop of `Layout::split_into_blocks_fast`
(`layout.rs` lines 130–158): a blank line closes the open block; a
dash-led line opens a block; an open block absorbs every non-blank line,
joined back with single newlines. -/
def blocksGo (cur : List Char) (inBlock : Bool) :
    List (List Char) → List (List Char)
  | [] => if cur.isEmpty then [] else [cur]
  | line :: rest =>
    let trimmed := trimStart line
    if trimmed.isEmpty then
      if inBlock && !cur.isEmpty then cur :: blocksGo [] false rest
      else blocksGo cur inBlock rest
    else if Parser.startsDash trimmed || inBlock then
      blocksGo (if cur.isEmpty then line else cur ++ '\n' :: line) true rest
    else blocksGo cur inBlock rest

/-- `Layout::split_into_blocks_fast` (`layout.rs` lines 122–160), with the
fast exit when no dash occurs anywhere. -/
def split_into_blocks_fast (content : List Char) : List (List Char) :=
  if '-' ∉ content then []
  else blocksGo [] false (rustLines content)

/-- The sequential branch of `Layout::parse_blockwise`: flat-map
`Parser::parse_line` over the blocks in order. -/
def seqParse : List (List Char) → List Opt
  | [] => []
  | b :: bs => Parser.parse_line b ++ seqParse bs

/-- The parallel branch of `Layout::parse_blockwise`, modelled by rayon's
documented semantics: an indexed parallel `flat_map` collected into a
vector is deterministic and preserves the original block order, so its
result is the concatenation, in block order, of the per-block results. -/
def parParse (blocks : List (List Char)) : List Opt :=
  (blocks.map fun b => Parser.parse_line b).flatten

/-- `Layout::parse_blockwise` (`layout.rs` lines 12–33): parallel path for
more than 4 blocks, sequential path otherwise. -/
def parse_blockwise (content : List Char) : List Opt :=
  let blocks := split_into_blocks_fast content
  if blocks.length > 4 then parParse blocks else seqParse blocks

/-- Rust `char::to_lowercase`, restricted to ASCII letters. The handful of
non-ASCII code points whose Unicode lowercasing differs from the identity
map to non-ASCII results (or to multi-character sequences that cannot
form the searched keywords), so this restriction does not change any of
the keyword/colon containment tests `parse_usage` performs. -/
def asciiLowerChar (c : Char) : Char :=
  if 'A' ≤ c && c ≤ 'Z' then Char.ofNat (c.toNat + 32) else c

/-- Rust `str::to_lowercase` under the ASCII restriction above. -/
def asciiLower (s : List Char) : List Char :=
  s.map asciiLowerChar

/-- Rust `<[u8]>::starts_with` / `str::starts_with` for a pattern list. -/
def startsWithList (pat s : List Char) : Bool :=
  List.isPrefixOf pat s

/-- Rust `str::find(pattern)` returning the position of the first match. -/
def findSubGo (pat : List Char) (n : Nat) : List Char → Option Nat
  | [] => if pat.isEmpty then some n else none
  | c :: rest =>
    if startsWithList pat (c :: rest) then some n
    else findSubGo pat (n + 1) rest

/-- Rust `str::contains(pattern)` for a string pattern. -/
def containsSub (pat s : List Char) : Bool :=
  (findSubGo pat 0 s).isSome

/-- The keyword scan of `Layout::parse_usage` (`layout.rs` lines 71–82):
the first keyword found in the lowercased content with a colon somewhere
after it. -/
def kwScan (lower : List Char) : List (List Char) → Option Nat
  | [] => none
  | kw :: kws =>
    match findSubGo kw 0 lower with
    | some pos =>
      if (lower.drop pos).contains ':' then some pos else kwScan lower kws
    | none => kwScan lower kws

/-- The absorb loop of `Layout::parse_usage` (`layout.rs` lines 100–109)
on the lines after the first: stop at an empty line or one that neither
starts with a space nor contains a colon. -/
def absorbRest : List (List Char) → List Char
  | [] => []
  | l :: rest =>
    if l.isEmpty || (!(l.head? = some ' ') && !l.contains ':') then []
    else '\n' :: (l ++ absorbRest rest)

/-- One usage block: the keyword line itself plus the absorbed lines. -/
def absorb : List (List Char) → List Char
  | [] => []
  | l :: rest => l ++ absorbRest rest

/-- The per-line condition of `Layout::parse_usage` (`layout.rs` line 96):
the lowercased line contains one of the keywords and a colon. -/
def usageCond (l : List Char) : Bool :=
  (containsSub ['u','s','a','g','e'] (asciiLower l) ||
   containsSub ['s','y','n','o','p','s','i','s'] (asciiLower l)) &&
  (asciiLower l).contains ':'

/-- The per-line scan of `Layout::parse_usage` (`layout.rs` lines 94–115):
find a line whose lowercase form contains a keyword and a colon, return
the absorbed block from it if non-empty, else keep scanning. -/
def usageLoop : List (List Char) → List Char
  | [] => []
  | l :: rest =>
    if usageCond l then
      let r := absorb (l :: rest)
      if !r.isEmpty then r else usageLoop rest
    else usageLoop rest

/-- `Layout::parse_usage` (`layout.rs` lines 58–118). The byte-level
`memchr` scans for the letters u/s/U/S coincide with character
containment because multi-byte UTF-8 characters contain no ASCII bytes. -/
def parse_usage (content : List Char) : List Char :=
  if !content.contains 'u' && !content.contains 's' &&
     !content.contains 'U' && !content.contains 'S' then []
  else
    let lower := asciiLower content
    match kwScan lower [['u','s','a','g','e'], ['s','y','n','o','p','s','i','s']] with
    | none => []
    | some _ => usageLoop (rustLines content)

end Layout

/-! ## Tree postprocessing and text cleanup (`src/postprocessor.rs`) -/

namespace Postprocessor

/-- The dedup key of `Postprocessor::deduplicate_options`
(`postprocessor.rs` lines 21–28): the pipe-joined name raw texts, in
stored order, paired with the argument. -/
def keyOf (o : Opt) : List Char × List Char :=
  (joinPipe (o.names.map OptName.raw), o.argument)

/-- The loop of `Postprocessor::deduplicate_options` with its `seen` key
set (`postprocessor.rs` lines 16–37). -/
def dedupGo (seen : List (List Char × List Char)) : List Opt → List Opt
  | [] => []
  | o :: os =>
    if keyOf o ∈ seen then dedupGo seen os
    else o :: dedupGo (keyOf o :: seen) os

/-- `Postprocessor::deduplicate_options`. -/
def deduplicate_options (options : List Opt) : List Opt :=
  dedupGo [] options

/-- The validity predicate of `Postprocessor::filter_invalid_options`
(`postprocessor.rs` lines 42–44). -/
def validOpt (o : Opt) : Bool :=
  match o.names with
  | [] => false
  | n0 :: _ => !n0.raw.isEmpty && !o.description.isEmpty

/-- `Postprocessor::filter_invalid_options` (`postprocessor.rs`
lines 39–46). -/
def filter_invalid_options (options : List Opt) : List Opt :=
  options.filter validOpt

mutual

/-- `Postprocessor::fix_command` (`postprocessor.rs` lines 8–14):
deduplicate, filter, then recurse into every subcommand. -/
def fix_command : Command → Command
  | .mk n d u opts subs v =>
    .mk n d u (filter_invalid_options (deduplicate_options opts)) (fixSubs subs) v

/-- `fix_command` mapped over a subcommand list (the
`subcommands.into_iter().map(Self::fix_command)` of the source). -/
def fixSubs : List Command → List Command
  | [] => []
  | c :: cs => fix_command c :: fixSubs cs

end

/-- One line of `Postprocessor::remove_bullets` (`postprocessor.rs`
lines 59–82): if the trimmed content starts with an asterisk, dash or
bullet glyph followed by an ASCII-whitespace character, keep the leading
indentation, drop the bullet and that whitespace character, and trim the
remaining leading whitespace; otherwise keep the line unchanged. The
byte-level tests of the source (`bytes[1]`, `bytes[3]`) check the first
byte of the character after the bullet, which is ASCII whitespace exactly
when that character is. -/
def processLine (line : List Char) : List Char :=
  let trimmed := trimStart line
  let pre := line.takeWhile rustIsWs
  match trimmed with
  | c1 :: c2 :: rest =>
    if (c1 = '*' || c1 = '-' || c1 = '\u2022') && isAsciiWs c2 then
      pre ++ rest.dropWhile rustIsWs
    else line
  | _ => line

/-- `Postprocessor::remove_bullets` (`postprocessor.rs` lines 48–86):
process each line and re-join with single newlines. -/
def remove_bullets (text : List Char) : List Char :=
  joinNl ((rustLines text).map processLine)

/-- The character transformation of `Postprocessor::unicode_spaces_to_ascii`
(`postprocessor.rs` lines 105–113). -/
def uniChar (c : Char) : List Char :=
  if c = '\u00A0' then [' ']
  else if c = '\u2003' then [' ', ' ', ' ']
  else if c = '\u2002' then [' ', ' ']
  else [c]

/-- `Postprocessor::unicode_spaces_to_ascii` (`postprocessor.rs`
lines 88–115), with its fast path when none of the three code points
occur. The byte-level `memmem` scans coincide with character containment
because the UTF-8 encodings of the three code points cannot straddle
character boundaries. -/
def unicode_spaces_to_ascii (text : List Char) : List Char :=
  if !text.contains '\u00A0' && !text.contains '\u2003' &&
     !text.contains '\u2002' then text
  else text.flatMap uniChar

end Postprocessor

/-! ## Whitespace normalization (`src/io_handler.rs`) -/

namespace IoHandler

/-- The double-space scan of `IoHandler::normalize_text` (`io_handler.rs`
lines 49–62): some character is a space immediately followed by another
space. -/
def hasDbl : List Char → Bool
  | [] => false
  | c :: rest =>
    match rest with
    | [] => false
    | c2 :: _ => if c = ' ' ∧ c2 = ' ' then true else hasDbl rest

/-- Rust `str::replace('\t', "        ")`. -/
def replaceTab (l : List Char) : List Char :=
  l.flatMap fun c =>
    if c = '\t' then [' ', ' ', ' ', ' ', ' ', ' ', ' ', ' '] else [c]

/-- Loop of `str::replace("  ", " ")`, leftmost-first and non-overlapping;
when a two-space match is replaced both spaces are consumed, modelled by
a `skip` flag that drops the already-consumed second space. -/
def replaceDblGo : Bool → List Char → List Char
  | _, [] => []
  | true, _ :: rest => replaceDblGo false rest
  | false, c :: rest =>
    match rest with
    | [] => [c]
    | c2 :: _ =>
      if c = ' ' ∧ c2 = ' ' then ' ' :: replaceDblGo true rest
      else c :: replaceDblGo false rest

/-- Rust `str::replace("  ", " ")`. -/
def replaceDbl (l : List Char) : List Char :=
  replaceDblGo false l

/-- The per-line transformation of `IoHandler::normalize_text`
(`io_handler.rs` lines 82–89), driven by the two scan flags. -/
def lineTransform (tabs dbl : Bool) (l : List Char) : List Char :=
  if tabs && dbl then replaceDbl (replaceTab l)
  else if tabs then replaceTab l
  else replaceDbl l

/-- The full transformation path of `IoHandler::normalize_text`
(`io_handler.rs` lines 69–92), run unconditionally: split into lines,
transform each, re-join with single newlines. -/
def normalizeFullPath (text : List Char) : List Char :=
  joinNl ((rustLines text).map
    (lineTransform (text.contains '\t') (hasDbl text)))

/-- `IoHandler::normalize_text` (`io_handler.rs` lines 42–93): return the
input unchanged when it contains no tab and no two-space run, otherwise
take the full transformation path. -/
def normalize_text (text : List Char) : List Char :=
  if !text.contains '\t' && !hasDbl text then text
  else normalizeFullPath text

end IoHandler

/-! ## Supporting lemmas -/

@[simp]
theorem utf8Len_nil : utf8Len [] = 0 := rfl

@[simp]
theorem utf8Len_cons (c : Char) (s : List Char) :
    utf8Len (c :: s) = c.utf8Size + utf8Len s := by
  simp [utf8Len]

theorem utf8Size_pos (c : Char) : 0 < c.utf8Size := by
  have := Char.utf8Size_pos c
  omega

/-! ## Claim C2: classification totality and precedence -/

/-- The branch conditions of `determine_type` as named propositions, for
readable case analysis. -/
theorem from_text_eq (s : List Char) :
    OptName.from_text s =
      if s = ['-'] then some ⟨s, .singleDashAlone⟩
      else if s = ['-', '-'] then some ⟨s, .doubleDashAlone⟩
      else if s.take 2 = ['-', '-'] then some ⟨s, .longType⟩
      else if s.head? = some '-' ∧ utf8Len s = 2 then some ⟨s, .shortType⟩
      else if s.head? = some '-' then some ⟨s, .oldType⟩
      else none := by
  simp only [OptName.from_text, determine_type]
  split_ifs <;> rfl

/-- C2: for every non-empty string starting with a dash, `OptName.from_text`
returns exactly one of the five types following the stated precedence
(exact dash alone, exact double dash, double-dash prefix with byte length
over 2, single dash with byte length 2, single dash with byte length over
2), and for every string not starting with a dash it returns nothing. -/
theorem classification_totality (s : List Char) :
    (s.head? ≠ some '-' → OptName.from_text s = none) ∧
    (s = ['-'] → OptName.from_text s = some ⟨['-'], .singleDashAlone⟩) ∧
    (s = ['-', '-'] → OptName.from_text s = some ⟨['-', '-'], .doubleDashAlone⟩) ∧
    (s.take 2 = ['-', '-'] → utf8Len s > 2 →
      OptName.from_text s = some ⟨s, .longType⟩) ∧
    (s.head? = some '-' → s.take 2 ≠ ['-', '-'] → utf8Len s = 2 →
      OptName.from_text s = some ⟨s, .shortType⟩) ∧
    (s.head? = some '-' → s.take 2 ≠ ['-', '-'] → utf8Len s > 2 →
      OptName.from_text s = some ⟨s, .oldType⟩) ∧
    (s.head? = some '-' → ∃ t, OptName.from_text s = some ⟨s, t⟩) := by
  refine ⟨?_, ?_, ?_, ?_, ?_, ?_, ?_⟩
  · intro h
    match s with
    | [] => rfl
    | c :: cs =>
      have hc : ¬ c = '-' := fun hEq => h (by simp [hEq])
      have h1 : ¬(c :: cs = ['-']) := by simp [hc]
      have h2 : ¬(c :: cs = ['-', '-']) := by simp [hc]
      have h3 : ¬((c :: cs).take 2 = ['-', '-']) := by
        simp [List.take_succ_cons, hc]
      have h45 : ¬((c :: cs).head? = some '-') := by simp [hc]
      rw [from_text_eq, if_neg h1, if_neg h2, if_neg h3,
        if_neg (fun hh => h45 hh.1), if_neg h45]
  · intro h; subst h; decide
  · intro h; subst h; decide
  · intro hpre hlen
    have h1 : ¬(s = ['-']) := fun hEq => by subst hEq; simp at hpre
    have h2 : ¬(s = ['-', '-']) := fun hEq => by
      subst hEq; exact absurd hlen (by decide)
    rw [from_text_eq, if_neg h1, if_neg h2, if_pos hpre]
  · intro hd hpre hlen
    have h1 : ¬(s = ['-']) := fun hEq => by
      subst hEq; exact absurd hlen (by decide)
    have h2 : ¬(s = ['-', '-']) := fun hEq => hpre (by rw [hEq]; rfl)
    rw [from_text_eq, if_neg h1, if_neg h2, if_neg hpre, if_pos ⟨hd, hlen⟩]
  · intro hd hpre hlen
    have h1 : ¬(s = ['-']) := fun hEq => by
      subst hEq; exact absurd hlen (by decide)
    have h2 : ¬(s = ['-', '-']) := fun hEq => by
      subst hEq; exact absurd hlen (by decide)
    have h4 : ¬(s.head? = some '-' ∧ utf8Len s = 2) := fun hh => by omega
    rw [from_text_eq, if_neg h1, if_neg h2, if_neg hpre, if_neg h4, if_pos hd]
  · intro hd
    by_cases h1 : s = ['-']
    · exact ⟨_, by rw [from_text_eq, if_pos h1]⟩
    by_cases h2 : s = ['-', '-']
    · exact ⟨_, by rw [from_text_eq, if_neg h1, if_pos h2]⟩
    by_cases h3 : s.take 2 = ['-', '-']
    · exact ⟨_, by rw [from_text_eq, if_neg h1, if_neg h2, if_pos h3]⟩
    by_cases h4 : utf8Len s = 2
    · exact ⟨_, by
        rw [from_text_eq, if_neg h1, if_neg h2, if_neg h3, if_pos ⟨hd, h4⟩]⟩
    · refine ⟨.oldType, ?_⟩
      rw [from_text_eq, if_neg h1, if_neg h2, if_neg h3,
        if_neg (fun hh => h4 hh.2), if_pos hd]

/-- Witness for C2: concrete classifications through the theorem. -/
theorem classification_totality_witness :
    OptName.from_text ['-', 'x'] = some ⟨['-', 'x'], .shortType⟩ ∧
    OptName.from_text ['x'] = none := by
  constructor
  · exact (classification_totality ['-', 'x']).2.2.2.2.1 (by decide) (by decide) (by decide)
  · exact (classification_totality ['x']).1 (by decide)

/-! ## Claim C1: same-line option/description splitting -/

theorem optEndGo_eq (ps : List (List Char)) :
    ∀ idx acc, Parser.optEndGo idx acc ps =
      if ps.isEmpty then acc else idx + ps.length := by
  induction ps with
  | nil => intro idx acc; rfl
  | cons p ps ih =>
    intro idx acc
    simp only [Parser.optEndGo]
    cases hsd : Parser.startsDash p
    · by_cases hidx : idx = 0
      · simp [hsd, hidx, ih]
        cases ps <;> simp <;> omega
      · simp [hsd, hidx, ih]
        cases ps <;> simp <;> omega
    · simp [hsd, ih]
      cases ps <;> simp <;> omega

theorem splitWsAux_cons_ne_nil (t : List Char) :
    ∀ (c : Char) (cur : List Char), splitWsAux (c :: cur) t ≠ [] := by
  induction t with
  | nil => intro c cur; simp [splitWsAux]
  | cons d t ih =>
    intro c cur
    simp only [splitWsAux]
    by_cases hw : rustIsWs d
    · simp [hw]
    · simp only [hw, Bool.false_eq_true, if_false]
      exact ih d (c :: cur)

theorem splitWs_ne_nil_of_dash (t : List Char)
    (h : Parser.startsDash t = true) : splitWs t ≠ [] := by
  match t, h with
  | c :: t, h =>
    have hc : c = '-' := by simpa [Parser.startsDash] using h
    subst hc
    simp only [splitWs, splitWsAux]
    rw [if_neg (by decide)]
    exact splitWsAux_cons_ne_nil t '-' []

/-- The amended behaviour of `Parser::preprocess`: the loop never splits an
option line into option text and same-line description, because its token
scan always extends the option portion to the end of the line. Every
dash-led line contributes its whole trimmed text as the option text; the
description is the following line's trimmed text when that line exists,
is not dash-led and is non-empty, and is empty otherwise. -/
def noSplitGo : Bool → List (List Char) → List (List Char × List Char)
  | _, [] => []
  | true, _ :: rest => noSplitGo false rest
  | false, line :: rest =>
    let trimmed := trimStart line
    if !Parser.startsDash trimmed then noSplitGo false rest
    else
      match rest with
      | [] => [(trimmed, [])]
      | next :: _ =>
        let desc := if !Parser.startsDash (trimStart next) then trim next else []
        if desc.isEmpty then (trimmed, []) :: noSplitGo false rest
        else (trimmed, desc) :: noSplitGo true rest

/-- The amended reference form of `Parser::preprocess`. -/
def preprocessNoSplit (s : List Char) : List (List Char × List Char) :=
  noSplitGo false (rustLines s)

theorem preprocessGo_eq_noSplitGo (ls : List (List Char)) :
    ∀ b, Parser.preprocessGo b ls = noSplitGo b ls := by
  induction ls with
  | nil => intro b; cases b <;> rfl
  | cons line rest ih =>
    intro b
    cases b
    · simp only [Parser.preprocessGo, noSplitGo]
      cases hsd : Parser.startsDash (trimStart line)
      · simp only [hsd, Bool.not_false, if_pos]
        exact ih false
      · simp only [hsd, Bool.not_true, Bool.false_eq_true, if_false]
        have hne : splitWs (trimStart line) ≠ [] := splitWs_ne_nil_of_dash _ hsd
        have hpos : 0 < (splitWs (trimStart line)).length := List.length_pos.mpr hne
        have hoe : Parser.optEndGo 0 0 (splitWs (trimStart line)) =
            (splitWs (trimStart line)).length := by
          rw [optEndGo_eq]
          simp [hne]
        rw [hoe]
        have hlt : ¬((splitWs (trimStart line)).length > 0 ∧
            (splitWs (trimStart line)).length < (splitWs (trimStart line)).length) :=
          fun hh => absurd hh.2 (lt_irrefl _)
        rw [if_neg hlt, if_pos hpos]
        cases rest with
        | nil => rfl
        | cons next rest2 =>
          dsimp only
          by_cases hdesc :
            (if !Parser.startsDash (trimStart next) then trim next else []).isEmpty
          · rw [if_pos hdesc, if_pos hdesc, ih false]
          · rw [if_neg hdesc, if_neg hdesc, ih true]
    · simp only [Parser.preprocessGo, noSplitGo]
      exact ih false

/-- C1, amended: `Parser::preprocess` never returns a same-line suffix of
description words — its token scan always extends the option portion to
the whole line, so every pair carries the full trimmed line as option
text (`preprocessNoSplit`); consequently Scenario A's input segments into
2 blocks and parses into exactly 2 options, whose name lists are as
claimed but whose same-line trailing words land in the `argument` field
(`show all`, `be verbose`) while both descriptions are empty. -/
theorem preprocess_no_same_line_split :
    (∀ s : List Char, Parser.preprocess s = preprocessNoSplit s) ∧
    Layout.parse_blockwise
        "  -a, --all        show all\n\n      --verbose    be verbose\n".toList =
      [⟨[⟨"--all".toList, .longType⟩, ⟨"-a".toList, .shortType⟩],
         "show all".toList, []⟩,
       ⟨[⟨"--verbose".toList, .longType⟩], "be verbose".toList, []⟩] := by
  constructor
  · intro s
    exact preprocessGo_eq_noSplitGo (rustLines s) false
  · decide

/-- Counterexample for C1 as stated: on Scenario A's first line the token
suffix `show all` exists, yet `Parser::preprocess` returns the whole
trimmed line as option text with an empty description, and the parsed
options of Scenario A carry empty descriptions, not `show all` and
`be verbose`. -/
theorem same_line_split_counterexample :
    Parser.preprocess "  -a, --all        show all".toList =
      [("-a, --all        show all".toList, [])] ∧
    (Layout.parse_blockwise
        "  -a, --all        show all\n\n      --verbose    be verbose\n".toList).map
      Opt.description = [[], []] ∧
    ("show all".toList : List Char) ≠ [] := by
  refine ⟨by decide, by decide, by decide⟩

/-! ## Claim C7: order preservation under parallelism -/

theorem seqParse_eq_flatten (bs : List (List Char)) :
    Layout.seqParse bs = (bs.map fun b => Parser.parse_line b).flatten := by
  induction bs with
  | nil => rfl
  | cons b bs ih => simp [Layout.seqParse, ih]

/-- C7: for every input splitting into more than 4 blocks,
`Layout.parse_blockwise` (which then takes the parallel path, modelled by
rayon's order-preserving flat-map-collect semantics) equals the
sequential path: flat-mapping `Parser.parse_line` over the blocks in
original block order. -/
theorem parallel_order_preservation (content : List Char)
    (h : (Layout.split_into_blocks_fast content).length > 4) :
    Layout.parse_blockwise content =
      Layout.seqParse (Layout.split_into_blocks_fast content) := by
  simp only [Layout.parse_blockwise]
  rw [if_pos h, Layout.parParse, seqParse_eq_flatten]

/-- Witness for C7: a five-block input taken through the theorem. -/
theorem parallel_order_preservation_witness :
    (Layout.split_into_blocks_fast
      "-a A\n\n-b B\n\n-c C\n\n-d D\n\n-e E\n".toList).length > 4 ∧
    Layout.parse_blockwise "-a A\n\n-b B\n\n-c C\n\n-d D\n\n-e E\n".toList =
      Layout.seqParse (Layout.split_into_blocks_fast
        "-a A\n\n-b B\n\n-c C\n\n-d D\n\n-e E\n".toList) :=
  ⟨by decide, parallel_order_preservation _ (by decide)⟩

/-! ## Claim C10: duplicates are removed per block only -/

/-- C10: the input below has two blank-line-separated blocks producing the
same option (and a first block with an exact duplicate inside it):
`Parser.parse_line` deduplicates within each block, but
`Layout.parse_blockwise` returns the cross-block duplicate twice; exact
duplicates survive across blocks. -/
theorem per_block_dedup_only :
    Parser.parse_line "-a x\n-a x".toList =
      [⟨[⟨['-', 'a'], .shortType⟩], ['x'], []⟩] ∧
    Layout.parse_blockwise "-a x\n-a x\n\n-a x\n".toList =
      [⟨[⟨['-', 'a'], .shortType⟩], ['x'], []⟩,
       ⟨[⟨['-', 'a'], .shortType⟩], ['x'], []⟩] := by
  constructor
  · decide
  · decide

/-! ## Claim C8: totality on structure-free input -/

theorem usageLoop_nil_of_no_cond (ls : List (List Char))
    (h : ∀ l ∈ ls, Layout.usageCond l = false) :
    Layout.usageLoop ls = [] := by
  induction ls with
  | nil => rfl
  | cons l rest ih =>
    simp only [Layout.usageLoop]
    rw [h l (by simp)]
    simp only [Bool.false_eq_true, if_false]
    exact ih fun x hx => h x (by simp [hx])

/-- C8: structure-free inputs yield valid empty results. If the input
contains no dash anywhere, `Layout.split_into_blocks_fast` returns no
blocks and `Layout.parse_blockwise` returns no options; if no line of the
input contains a usage/synopsis keyword together with a colon,
`Layout.parse_usage` returns the empty string. Both functions are total;
no error value exists. -/
theorem totality_structure_free (content : List Char) :
    ('-' ∉ content →
      Layout.split_into_blocks_fast content = [] ∧
      Layout.parse_blockwise content = []) ∧
    ((∀ l ∈ rustLines content, Layout.usageCond l = false) →
      Layout.parse_usage content = []) := by
  constructor
  · intro h
    have hb : Layout.split_into_blocks_fast content = [] := by
      simp only [Layout.split_into_blocks_fast]
      rw [if_pos h]
    refine ⟨hb, ?_⟩
    simp only [Layout.parse_blockwise, hb]
    rfl
  · intro h
    simp only [Layout.parse_usage]
    split_ifs with h1
    · rfl
    · cases hk : Layout.kwScan (Layout.asciiLower content)
        [['u','s','a','g','e'], ['s','y','n','o','p','s','i','s']] with
      | none => rfl
      | some p => exact usageLoop_nil_of_no_cond _ h

/-- Witness for C8: a concrete input with no dash and no keyword line. -/
theorem totality_structure_free_witness :
    Layout.split_into_blocks_fast "hello usage of\nthis: text".toList = [] ∧
    Layout.parse_blockwise "hello usage of\nthis: text".toList = [] ∧
    Layout.parse_usage "hello usage of\nthis: text".toList = [] := by
  refine ⟨?_, ?_, ?_⟩
  · exact ((totality_structure_free "hello usage of\nthis: text".toList).1
      (by decide)).1
  · exact ((totality_structure_free "hello usage of\nthis: text".toList).1
      (by decide)).2
  · exact (totality_structure_free "hello usage of\nthis: text".toList).2
      (by decide)

/-! ## Newline-splitting lemmas -/

theorem splitOnNl_ne_nil (s : List Char) : splitOnNl s ≠ [] := by
  cases s with
  | nil => simp [splitOnNl]
  | cons c cs =>
    simp only [splitOnNl]
    split_ifs
    · simp
    · cases h : splitOnNl cs <;> simp

theorem joinNl_splitOnNl (s : List Char) : joinNl (splitOnNl s) = s := by
  induction s with
  | nil => rfl
  | cons c cs ih =>
    simp only [splitOnNl]
    split_ifs with hc
    · subst hc
      cases hps : splitOnNl cs with
      | nil => exact absurd hps (splitOnNl_ne_nil cs)
      | cons p ps =>
        rw [hps] at ih
        show joinNl ([] :: p :: ps) = '\n' :: cs
        rw [← ih]
        rfl
    · cases hps : splitOnNl cs with
      | nil => exact absurd hps (splitOnNl_ne_nil cs)
      | cons p ps =>
        rw [hps] at ih
        show joinNl ((c :: p) :: ps) = c :: cs
        rw [← ih]
        cases ps with
        | nil => rfl
        | cons q qs => rfl

theorem mem_of_mem_splitOnNl (s : List Char) :
    ∀ l ∈ splitOnNl s, ∀ c ∈ l, c ∈ s := by
  induction s with
  | nil =>
    intro l hl c hc
    simp [splitOnNl] at hl
    subst hl
    simp at hc
  | cons a cs ih =>
    intro l hl d hd
    by_cases ha : a = '\n'
    · rw [splitOnNl, if_pos ha] at hl
      rcases List.mem_cons.mp hl with h1 | h2
      · subst h1; simp at hd
      · exact List.mem_cons_of_mem a (ih l h2 d hd)
    · rw [splitOnNl, if_neg ha] at hl
      cases hps : splitOnNl cs with
      | nil => exact absurd hps (splitOnNl_ne_nil cs)
      | cons p ps =>
        rw [hps] at hl
        rcases List.mem_cons.mp hl with h1 | h2
        · subst h1
          rcases List.mem_cons.mp hd with h3 | h4
          · subst h3; exact List.mem_cons_self d cs
          · exact List.mem_cons_of_mem a
              (ih p (by rw [hps]; exact List.mem_cons_self p ps) d h4)
        · exact List.mem_cons_of_mem a
            (ih l (by rw [hps]; exact List.mem_cons_of_mem p h2) d hd)

theorem nl_not_mem_splitOnNl (s : List Char) :
    ∀ l ∈ splitOnNl s, '\n' ∉ l := by
  induction s with
  | nil =>
    intro l hl
    simp [splitOnNl] at hl
    subst hl
    simp
  | cons a cs ih =>
    intro l hl
    by_cases ha : a = '\n'
    · rw [splitOnNl, if_pos ha] at hl
      rcases List.mem_cons.mp hl with h1 | h2
      · subst h1; simp
      · exact ih l h2
    · rw [splitOnNl, if_neg ha] at hl
      cases hps : splitOnNl cs with
      | nil => exact absurd hps (splitOnNl_ne_nil cs)
      | cons p ps =>
        rw [hps] at hl
        rcases List.mem_cons.mp hl with h1 | h2
        · subst h1
          intro hmem
          rcases List.mem_cons.mp hmem with h3 | h4
          · exact ha h3.symm
          · exact ih p (by rw [hps]; exact List.mem_cons_self p ps) h4
        · exact ih l (by rw [hps]; exact List.mem_cons_of_mem p h2)

theorem getLast?_splitOnNl_ne_nil (s : List Char) :
    s ≠ [] → s.getLast? ≠ some '\n' → (splitOnNl s).getLast? ≠ some [] := by
  induction s with
  | nil => intro h; exact absurd rfl h
  | cons c cs ih =>
    intro _ hlast
    cases cs with
    | nil =>
      have hc : ¬ c = '\n' := fun hEq => hlast (by simp [hEq])
      simp [splitOnNl, hc]
    | cons c2 cs2 =>
      have hlast2 : (c2 :: cs2).getLast? ≠ some '\n' := by
        rw [← List.getLast?_cons_cons (a := c)]
        exact hlast
      have ih2 := ih (by simp) hlast2
      by_cases hc : c = '\n'
      · rw [splitOnNl, if_pos hc]
        cases hps : splitOnNl (c2 :: cs2) with
        | nil => exact absurd hps (splitOnNl_ne_nil _)
        | cons p ps =>
          rw [hps] at ih2
          rw [List.getLast?_cons_cons]
          exact ih2
      · rw [splitOnNl, if_neg hc]
        cases hps : splitOnNl (c2 :: cs2) with
        | nil => exact absurd hps (splitOnNl_ne_nil _)
        | cons p ps =>
          rw [hps] at ih2
          cases ps with
          | nil => simp
          | cons q qs =>
            rw [List.getLast?_cons_cons]
            rw [List.getLast?_cons_cons] at ih2
            exact ih2

theorem getLast?_mem_of_eq {l : List Char} {a : Char}
    (h : l.getLast? = some a) : a ∈ l := by
  have := List.mem_getLast?_eq_getLast (l := l) (x := a) (by simp [h])
  obtain ⟨hne, rfl⟩ := this
  exact List.getLast_mem hne

theorem stripCR_eq_self (l : List Char) (h : l.getLast? ≠ some '\r') :
    stripCR l = l := by
  induction l with
  | nil => rfl
  | cons c rest ih =>
    cases rest with
    | nil =>
      have hc : ¬ c = '\r' := fun hEq => h (by simp [hEq])
      simp [stripCR, hc]
    | cons d rest2 =>
      show c :: stripCR (d :: rest2) = c :: d :: rest2
      rw [ih (by rw [← List.getLast?_cons_cons (a := c)]; exact h)]

theorem linesAux_eq_self (ps : List (List Char)) :
    ps.getLast? ≠ some [] →
    (∀ l ∈ ps.dropLast, l.getLast? ≠ some '\r') → linesAux ps = ps := by
  induction ps with
  | nil => intro _ _; rfl
  | cons l ps ih =>
    intro hlast hcr
    cases ps with
    | nil =>
      have hne : ¬ l.isEmpty := by
        cases l with
        | nil => exact absurd (by rfl) hlast
        | cons a as_ => simp
      simp [linesAux, hne]
    | cons p ps2 =>
      show stripCR l :: linesAux (p :: ps2) = l :: p :: ps2
      rw [stripCR_eq_self l (hcr l (by simp)),
        ih (by rw [← List.getLast?_cons_cons (a := l)]; exact hlast)
          (fun x hx => hcr x (by
            rw [List.dropLast_cons₂]
            exact List.mem_cons_of_mem l hx))]

/-! ## Claim C6: fast-path versus full-path normalization -/

theorem uniChar_eq_self {c : Char} (h0 : c ≠ ' ') (h3 : c ≠ ' ')
    (h2 : c ≠ ' ') : Postprocessor.uniChar c = [c] := by
  simp [Postprocessor.uniChar, h0, h3, h2]

theorem flatMap_uniChar_eq_self (t : List Char) (h0 : ' ' ∉ t)
    (h3 : ' ' ∉ t) (h2 : ' ' ∉ t) :
    t.flatMap Postprocessor.uniChar = t := by
  induction t with
  | nil => rfl
  | cons c cs ih =>
    rw [List.flatMap_cons,
      uniChar_eq_self (fun hEq => h0 (by simp [hEq]))
        (fun hEq => h3 (by simp [hEq])) (fun hEq => h2 (by simp [hEq]))]
    rw [ih (fun hm => h0 (by simp [hm])) (fun hm => h3 (by simp [hm]))
      (fun hm => h2 (by simp [hm]))]
    rfl

theorem hasDbl_cons_cons (c d : Char) (rest : List Char) :
    IoHandler.hasDbl (c :: d :: rest) = false ↔
      ¬(c = ' ' ∧ d = ' ') ∧ IoHandler.hasDbl (d :: rest) = false := by
  show (if c = ' ' ∧ d = ' ' then true else IoHandler.hasDbl (d :: rest)) = false ↔ _
  split_ifs with h
  · simp [h]
  · simp [h]

theorem replaceDblGo_eq_self (l : List Char)
    (h : IoHandler.hasDbl l = false) : IoHandler.replaceDblGo false l = l := by
  induction l with
  | nil => rfl
  | cons c rest ih =>
    cases rest with
    | nil => rfl
    | cons d rest2 =>
      obtain ⟨h1, h2⟩ := (hasDbl_cons_cons c d rest2).mp h
      show (if c = ' ' ∧ d = ' ' then ' ' :: IoHandler.replaceDblGo true (d :: rest2)
        else c :: IoHandler.replaceDblGo false (d :: rest2)) = c :: d :: rest2
      rw [if_neg h1, ih h2]

theorem hasDbl_splitOnNl (s : List Char) (h : IoHandler.hasDbl s = false) :
    ∀ l ∈ splitOnNl s, IoHandler.hasDbl l = false := by
  induction s with
  | nil =>
    intro l hl
    simp [splitOnNl] at hl
    subst hl
    rfl
  | cons c cs ih =>
    intro l hl
    have hcs : IoHandler.hasDbl cs = false := by
      cases cs with
      | nil => rfl
      | cons d ds => exact ((hasDbl_cons_cons c d ds).mp h).2
    by_cases hc : c = '\n'
    · rw [splitOnNl, if_pos hc] at hl
      rcases List.mem_cons.mp hl with h1 | h2
      · subst h1; rfl
      · exact ih hcs l h2
    · rw [splitOnNl, if_neg hc] at hl
      cases hps : splitOnNl cs with
      | nil => exact absurd hps (splitOnNl_ne_nil cs)
      | cons p ps =>
        rw [hps] at hl
        rcases List.mem_cons.mp hl with h1 | h2
        · subst h1
          cases hp : p with
          | nil => rfl
          | cons d t =>
            have hpd : IoHandler.hasDbl (d :: t) = false := by
              rw [← hp]
              exact ih hcs p (by rw [hps]; exact List.mem_cons_self p ps)
            refine (hasDbl_cons_cons c d t).mpr ⟨?_, hpd⟩
            rintro ⟨hc1, hd1⟩
            -- d is the head of cs: adjacent spaces in s
            cases cs with
            | nil => simp [splitOnNl] at hps; rw [hps.1] at hp; cases hp
            | cons e cs2 =>
              have he : e = d := by
                by_cases hen : e = '\n'
                · rw [splitOnNl, if_pos hen] at hps
                  have : p = [] := (List.cons.injEq _ _ _ _).mp hps |>.1.symm
                  rw [this] at hp; cases hp
                · rw [splitOnNl, if_neg hen] at hps
                  cases hps2 : splitOnNl cs2 with
                  | nil => exact absurd hps2 (splitOnNl_ne_nil cs2)
                  | cons q qs =>
                    rw [hps2] at hps
                    have : e :: q = p := (List.cons.injEq _ _ _ _).mp hps |>.1
                    rw [hp] at this
                    exact ((List.cons.injEq _ _ _ _).mp this).1
              have : IoHandler.hasDbl (c :: e :: cs2) = false := h
              rw [he] at this
              exact ((hasDbl_cons_cons c d cs2).mp this).1 ⟨hc1, hd1⟩
        · exact ih hcs l (by rw [hps]; exact List.mem_cons_of_mem p h2)

theorem lineTransform_false_false (l : List Char) :
    IoHandler.lineTransform false false l = IoHandler.replaceDbl l := rfl

theorem normalizeFullPath_eq_self (t : List Char) (h1 : '\t' ∉ t)
    (h2 : IoHandler.hasDbl t = false) (h3 : '\r' ∉ t)
    (h4 : t.getLast? ≠ some '\n') : IoHandler.normalizeFullPath t = t := by
  by_cases ht : t = []
  · subst ht; rfl
  · have hcont : t.contains '\t' = false := by simpa using h1
    simp only [IoHandler.normalizeFullPath, hcont, h2]
    have hlines : rustLines t = splitOnNl t := by
      unfold rustLines
      apply linesAux_eq_self
      · exact getLast?_splitOnNl_ne_nil t ht h4
      · intro l hl hEq
        exact h3 (mem_of_mem_splitOnNl t l
          ((List.dropLast_sublist (splitOnNl t)).subset hl) '\r'
          (getLast?_mem_of_eq hEq))
    rw [hlines]
    have hmap : (splitOnNl t).map (IoHandler.lineTransform false false) =
        splitOnNl t := by
      rw [List.map_congr_left (fun l hl => ?_), List.map_id']
      rw [lineTransform_false_false]
      exact replaceDblGo_eq_self l (hasDbl_splitOnNl t h2 l hl)
    rw [hmap, joinNl_splitOnNl]

/-- C6, amended: the fast path of `unicode_spaces_to_ascii` agrees with the
naive character-by-character reference (`flatMap uniChar`) on every
input; the fast path of `normalize_text` agrees with its full
transformation path on every input that needs no transformation and
whose line structure the full path preserves (no carriage return, no
final newline) — on inputs with a final line terminator or CRLF
terminators the two paths differ, because the full path re-joins lines
with single newlines. -/
theorem fast_full_path_equivalence :
    (∀ t, Postprocessor.unicode_spaces_to_ascii t =
      t.flatMap Postprocessor.uniChar) ∧
    (∀ t, '\t' ∉ t → IoHandler.hasDbl t = false → '\r' ∉ t →
      t.getLast? ≠ some '\n' →
      IoHandler.normalize_text t = IoHandler.normalizeFullPath t) := by
  constructor
  · intro t
    simp only [Postprocessor.unicode_spaces_to_ascii]
    split_ifs with h
    · simp only [Bool.and_eq_true, Bool.not_eq_true'] at h
      refine (flatMap_uniChar_eq_self t ?_ ?_ ?_).symm
      · simpa using h.1.1
      · simpa using h.1.2
      · simpa using h.2
    · rfl
  · intro t h1 h2 h3 h4
    have hcont : t.contains '\t' = false := by simpa using h1
    simp only [IoHandler.normalize_text, hcont, h2]
    rw [normalizeFullPath_eq_self t h1 h2 h3 h4]
    simp

/-- Witness for C6: the theorem applied to concrete inputs on both
conjuncts. -/
theorem fast_full_path_equivalence_witness :
    Postprocessor.unicode_spaces_to_ascii "a b".toList =
      "a b".toList.flatMap Postprocessor.uniChar ∧
    IoHandler.normalize_text "ab cd".toList =
      IoHandler.normalizeFullPath "ab cd".toList :=
  ⟨fast_full_path_equivalence.1 "a b".toList,
   fast_full_path_equivalence.2 "ab cd".toList (by decide) (by decide)
     (by decide) (by decide)⟩

/-- Counterexample for C6 as stated: on the input `"a\n"` (no tab, no
double space, so the fast path returns it unchanged) the full
transformation path drops the final newline, so fast path and full path
disagree. -/
theorem fast_full_path_counterexample :
    IoHandler.normalize_text "a\n".toList = "a\n".toList ∧
    IoHandler.normalizeFullPath "a\n".toList = "a".toList ∧
    IoHandler.normalize_text "a\n".toList ≠
      IoHandler.normalizeFullPath "a\n".toList := by
  refine ⟨by decide, by decide, by decide⟩

/-! ## Claim C9: line terminators under `remove_bullets` -/

theorem stripCR_subset {l : List Char} {c : Char}
    (h : c ∈ stripCR l) : c ∈ l := by
  induction l with
  | nil => exact absurd h (by simp [stripCR])
  | cons a rest ih =>
    cases rest with
    | nil =>
      by_cases ha : a = '\r'
      · simp [stripCR, ha] at h
      · simp [stripCR, ha] at h
        simp [h]
    | cons d rest2 =>
      rcases List.mem_cons.mp h with h1 | h2
      · subst h1; exact List.mem_cons_self c _
      · exact List.mem_cons_of_mem a (ih h2)

theorem mem_linesAux {ps : List (List Char)} {l : List Char}
    (h : l ∈ linesAux ps) : ∃ p ∈ ps, l = stripCR p ∨ l = p := by
  induction ps with
  | nil => exact absurd h (by simp [linesAux])
  | cons p ps ih =>
    cases ps with
    | nil =>
      by_cases hp : p.isEmpty
      · simp [linesAux, hp] at h
      · simp [linesAux, hp] at h
        exact ⟨p, by simp, Or.inr h⟩
    | cons q qs =>
      rcases List.mem_cons.mp h with h1 | h2
      · exact ⟨p, by simp, Or.inl h1⟩
      · obtain ⟨x, hx, hor⟩ := ih h2
        exact ⟨x, List.mem_cons_of_mem p hx, hor⟩

theorem nl_not_mem_rustLines (t : List Char) :
    ∀ l ∈ rustLines t, '\n' ∉ l := by
  intro l hl hmem
  obtain ⟨p, hp, hor⟩ := mem_linesAux hl
  have hfree := nl_not_mem_splitOnNl t p hp
  rcases hor with h1 | h2
  · exact hfree (stripCR_subset (h1 ▸ hmem))
  · exact hfree (h2 ▸ hmem)

theorem processLine_subset (l : List Char) :
    ∀ c ∈ Postprocessor.processLine l, c ∈ l := by
  intro c hc
  unfold Postprocessor.processLine at hc
  cases htr : trimStart l with
  | nil => rw [htr] at hc; exact hc
  | cons c1 tl =>
    cases tl with
    | nil => rw [htr] at hc; exact hc
    | cons c2 rest =>
      rw [htr] at hc
      dsimp only at hc
      split_ifs at hc with hb
      · rcases List.mem_append.mp hc with h1 | h2
        · exact (List.takeWhile_sublist rustIsWs).subset h1
        · have hrest : c ∈ rest := (List.dropWhile_sublist rustIsWs).subset h2
          have : c ∈ trimStart l := by
            rw [htr]
            exact List.mem_cons_of_mem c1 (List.mem_cons_of_mem c2 hrest)
          exact (List.dropWhile_sublist rustIsWs).subset this
      · exact hc

theorem mem_joinNl {ms : List (List Char)} {c : Char}
    (h : c ∈ joinNl ms) : c = '\n' ∨ ∃ m ∈ ms, c ∈ m := by
  induction ms with
  | nil => exact absurd h (by simp [joinNl])
  | cons m ms2 ih =>
    cases ms2 with
    | nil => exact Or.inr ⟨m, by simp, h⟩
    | cons q qs =>
      rw [show joinNl (m :: q :: qs) = m ++ '\n' :: joinNl (q :: qs) from rfl]
        at h
      rcases List.mem_append.mp h with h1 | h2
      · exact Or.inr ⟨m, by simp, h1⟩
      · rcases List.mem_cons.mp h2 with h3 | h4
        · exact Or.inl h3
        · rcases ih h4 with h5 | ⟨x, hx, hcx⟩
          · exact Or.inl h5
          · exact Or.inr ⟨x, List.mem_cons_of_mem m hx, hcx⟩

theorem getLast?_joinNl_ne_nl (ms : List (List Char))
    (hfree : ∀ m ∈ ms, '\n' ∉ m)
    (hlast : ∀ m, ms.getLast? = some m → m ≠ []) :
    (joinNl ms).getLast? ≠ some '\n' := by
  induction ms with
  | nil => simp [joinNl]
  | cons m ms2 ih =>
    cases ms2 with
    | nil =>
      intro hEq
      exact hfree m (by simp) (getLast?_mem_of_eq hEq)
    | cons q qs =>
      rw [show joinNl (m :: q :: qs) = m ++ '\n' :: joinNl (q :: qs) from rfl]
      have hjoin_ne : '\n' :: joinNl (q :: qs) ≠ [] := by simp
      rw [List.getLast?_append_of_ne_nil _ hjoin_ne]
      have hX : joinNl (q :: qs) ≠ [] := by
        intro hEq
        cases qs with
        | nil =>
          have hq : q ≠ [] := hlast q (by rfl)
          exact hq hEq
        | cons r rs =>
          rw [show joinNl (q :: r :: rs) = q ++ '\n' :: joinNl (r :: rs)
            from rfl] at hEq
          simp at hEq
      cases hJ : joinNl (q :: qs) with
      | nil => exact absurd hJ hX
      | cons x xs =>
        rw [List.getLast?_cons_cons]
        rw [← hJ]
        exact ih (fun a ha => hfree a (List.mem_cons_of_mem m ha))
          (fun a ha => hlast a (by rw [List.getLast?_cons_cons]; exact ha))

/-- Every carriage return in the text is immediately followed by a line
feed (every CR belongs to a CRLF terminator). -/
def noLoneCR : List Char → Bool
  | [] => true
  | c :: rest =>
    if c = '\r' then
      match rest with
      | [] => false
      | d :: _ => if d = '\n' then noLoneCR rest else false
    else noLoneCR rest

theorem noLoneCR_cons_of_ne (c : Char) (cs : List Char) (hc : c ≠ '\r') :
    noLoneCR (c :: cs) = noLoneCR cs := by
  rw [noLoneCR.eq_def]
  simp [hc]

theorem noLoneCR_cr {cs : List Char} (h : noLoneCR ('\r' :: cs) = true) :
    ∃ cs2, cs = '\n' :: cs2 ∧ noLoneCR cs = true := by
  cases cs with
  | nil => rw [noLoneCR.eq_def] at h; simp at h
  | cons d cs2 =>
    by_cases hd : d = '\n'
    · subst hd
      refine ⟨cs2, rfl, ?_⟩
      rw [noLoneCR.eq_def] at h
      simpa using h
    · rw [noLoneCR.eq_def] at h
      simp [hd] at h

theorem cr_not_mem_rustLines (t : List Char) (h : noLoneCR t = true) :
    ∀ l ∈ rustLines t, '\r' ∉ l := by
  induction t with
  | nil =>
    intro l hl
    simp [rustLines, splitOnNl, linesAux] at hl
  | cons c cs ih =>
    intro l hl
    by_cases hc : c = '\n'
    · have hn : noLoneCR cs = true := by
        rw [← noLoneCR_cons_of_ne c cs (by rw [hc]; decide)]
        exact h
      subst hc
      rw [rustLines, splitOnNl, if_pos rfl] at hl
      cases hps : splitOnNl cs with
      | nil => exact absurd hps (splitOnNl_ne_nil cs)
      | cons p ps =>
        rw [hps] at hl
        rw [show linesAux ([] :: p :: ps) = [] :: linesAux (p :: ps)
          from rfl] at hl
        rcases List.mem_cons.mp hl with h1 | h2
        · subst h1; simp
        · exact ih hn l (by rw [rustLines, hps]; exact h2)
    · by_cases hr : c = '\r'
      · subst hr
        obtain ⟨cs2, rfl, hn⟩ := noLoneCR_cr h
        rw [rustLines, splitOnNl, if_neg hc] at hl
        rw [show splitOnNl ('\n' :: cs2) = [] :: splitOnNl cs2 from by
          rw [splitOnNl, if_pos rfl]] at hl
        cases hps : splitOnNl cs2 with
        | nil => exact absurd hps (splitOnNl_ne_nil cs2)
        | cons p ps =>
          rw [hps] at hl
          rw [show linesAux (('\r' :: []) :: p :: ps) =
            [] :: linesAux (p :: ps) from rfl] at hl
          rcases List.mem_cons.mp hl with h1 | h2
          · subst h1; simp
          · have := ih hn l (by
              rw [rustLines, splitOnNl, if_pos rfl, hps]
              rw [show linesAux ([] :: p :: ps) = [] :: linesAux (p :: ps)
                from rfl]
              exact List.mem_cons_of_mem [] h2)
            exact this
      · have hn : noLoneCR cs = true := by
          rw [← noLoneCR_cons_of_ne c cs hr]
          exact h
        rw [rustLines, splitOnNl, if_neg hc] at hl
        cases hps : splitOnNl cs with
        | nil => exact absurd hps (splitOnNl_ne_nil cs)
        | cons p ps =>
          rw [hps] at hl
          cases ps with
          | nil =>
            rw [show linesAux [c :: p] = if (c :: p).isEmpty then []
              else [c :: p] from rfl] at hl
            rw [if_neg (by simp)] at hl
            rcases List.mem_cons.mp hl with h1 | h2
            · subst h1
              intro hmem
              rcases List.mem_cons.mp hmem with h3 | h4
              · exact hr h3.symm
              · -- '\r' ∈ p where p is the single line of cs
                have hpm : p ∈ rustLines cs := by
                  rw [rustLines, hps]
                  by_cases hp : p.isEmpty
                  · rw [List.isEmpty_iff] at hp
                    subst hp
                    simp at h4
                  · rw [show linesAux [p] = if p.isEmpty then [] else [p]
                      from rfl, if_neg (by simpa using hp)]
                    simp
                exact ih hn p hpm h4
            · simp at h2
          | cons q qs =>
            rw [show linesAux ((c :: p) :: q :: qs) =
              stripCR (c :: p) :: linesAux (q :: qs) from rfl] at hl
            rcases List.mem_cons.mp hl with h1 | h2
            · subst h1
              intro hmem
              have hmem2 := stripCR_subset hmem
              rcases List.mem_cons.mp hmem2 with h3 | h4
              · exact hr h3.symm
              · -- '\r' ∈ p, and stripCR p ∈ rustLines cs; relate
                cases hp : p with
                | nil => rw [hp] at h4; simp at h4
                | cons e p2 =>
                  rw [hp] at hmem
                  rw [show stripCR (c :: e :: p2) = c :: stripCR (e :: p2)
                    from rfl] at hmem
                  rcases List.mem_cons.mp hmem with h5 | h6
                  · exact hr h5.symm
                  · have hsm : stripCR (e :: p2) ∈ rustLines cs := by
                      rw [rustLines, hps, hp]
                      rw [show linesAux ((e :: p2) :: q :: qs) =
                        stripCR (e :: p2) :: linesAux (q :: qs) from rfl]
                      simp
                    exact ih hn _ hsm h6
            · have : l ∈ rustLines cs := by
                rw [rustLines, hps]
                rw [show linesAux (p :: q :: qs) =
                  stripCR p :: linesAux (q :: qs) from rfl]
                exact List.mem_cons_of_mem _ h2
              exact ih hn l this

/-- The last line of the input still has text after bullet processing
(vacuously true when the input has no lines). -/
def lastLineOk (t : List Char) : Bool :=
  match (rustLines t).getLast? with
  | none => true
  | some l => !(Postprocessor.processLine l).isEmpty

/-- C9, amended: `remove_bullets` re-joins the processed lines with single
newlines, so the input's final line terminator itself is always dropped;
the output ends with a newline only when the processed last line is
empty — whenever the last line still has text after bullet processing
the output does not end with a newline — and when every carriage return
in the input belongs to a CRLF terminator, no carriage return survives
into the output (each CRLF became LF). -/
theorem remove_bullets_line_endings (t : List Char) :
    (lastLineOk t = true →
      (Postprocessor.remove_bullets t).getLast? ≠ some '\n') ∧
    (noLoneCR t = true → '\r' ∉ Postprocessor.remove_bullets t) := by
  constructor
  · intro h
    unfold Postprocessor.remove_bullets
    apply getLast?_joinNl_ne_nl
    · intro m hm hnl
      obtain ⟨l, hl, rfl⟩ := List.mem_map.mp hm
      exact nl_not_mem_rustLines t l hl (processLine_subset l '\n' hnl)
    · intro m hm
      rw [List.getLast?_map] at hm
      cases hg : (rustLines t).getLast? with
      | none => rw [hg] at hm; simp at hm
      | some l =>
        rw [hg] at hm
        simp only [Option.map_some'] at hm
        unfold lastLineOk at h
        rw [hg] at h
        simp only [Bool.not_eq_true', List.isEmpty_eq_false] at h
        rw [← (Option.some.injEq _ _).mp hm]
        exact h
  · intro h hmem
    unfold Postprocessor.remove_bullets at hmem
    rcases mem_joinNl hmem with h1 | ⟨m, hm, hcm⟩
    · exact absurd h1 (by decide)
    · obtain ⟨l, hl, rfl⟩ := List.mem_map.mp hm
      exact cr_not_mem_rustLines t h l hl (processLine_subset l '\r' hcm)

/-- Witness for C9: the theorem applied to a concrete CRLF-terminated
bulleted input. -/
theorem remove_bullets_line_endings_witness :
    (Postprocessor.remove_bullets "- x\r\ny".toList).getLast? ≠ some '\n' ∧
    '\r' ∉ Postprocessor.remove_bullets "- x\r\ny".toList :=
  ⟨(remove_bullets_line_endings "- x\r\ny".toList).1 (by decide),
   (remove_bullets_line_endings "- x\r\ny".toList).2 (by decide)⟩

/-- Counterexample for C9 as stated: the input `"a\n\n"` ends with a line
feed, yet the output of `remove_bullets` also ends with a line feed (the
blank last line is preserved and the join re-inserts the newline). -/
theorem remove_bullets_counterexample :
    "a\n\n".toList.getLast? = some '\n' ∧
    (Postprocessor.remove_bullets "a\n\n".toList).getLast? = some '\n' := by
  refine ⟨by decide, by decide⟩

/-! ## Postprocessor tree lemmas (claims C3, C4, C5) -/

/-- The reflexive-transitive subtree relation on the command tree: `c'` is
the tree itself or a node somewhere below it. -/
inductive IsSubtree : Command → Command → Prop where
  | refl (c : Command) : IsSubtree c c
  | step {c d c' : Command} : d ∈ c.subcommands → IsSubtree d c' →
      IsSubtree c c'

theorem fix_command_mk (n d u : List Char) (opts : List Opt)
    (subs : List Command) (v : List Char) :
    Postprocessor.fix_command (Command.mk n d u opts subs v) =
      Command.mk n d u
        (Postprocessor.filter_invalid_options
          (Postprocessor.deduplicate_options opts))
        (Postprocessor.fixSubs subs) v := rfl

theorem mem_fixSubs {subs : List Command} {d : Command}
    (h : d ∈ Postprocessor.fixSubs subs) :
    ∃ c ∈ subs, d = Postprocessor.fix_command c := by
  induction subs with
  | nil => exact absurd h (by simp [Postprocessor.fixSubs])
  | cons x xs ih =>
    rcases List.mem_cons.mp h with h1 | h2
    · exact ⟨x, by simp, h1⟩
    · obtain ⟨c, hc, hd⟩ := ih h2
      exact ⟨c, List.mem_cons_of_mem x hc, hd⟩

theorem validOpt_spec (o : Opt) (h : Postprocessor.validOpt o = true) :
    (∃ nm ∈ o.names, nm.raw ≠ []) ∧ o.description ≠ [] := by
  unfold Postprocessor.validOpt at h
  cases hn : o.names with
  | nil => rw [hn] at h; cases h
  | cons n0 rest =>
    rw [hn] at h
    simp only [Bool.and_eq_true, Bool.not_eq_true', List.isEmpty_eq_false]
      at h
    exact ⟨⟨n0, by simp [hn], h.1⟩, h.2⟩

/-- C3: after `fix_command`, every option of every subtree at any depth
passed the validity filter: it has at least one name with non-empty raw
text and a non-empty description. -/
theorem fix_command_invariant : ∀ (c c' : Command),
    IsSubtree (Postprocessor.fix_command c) c' →
    ∀ o ∈ c'.options, (∃ nm ∈ o.names, nm.raw ≠ []) ∧ o.description ≠ [] := by
  intro c
  induction c using Command.rec
    (motive_2 := fun subs => ∀ d ∈ Postprocessor.fixSubs subs,
      ∀ c', IsSubtree d c' → ∀ o ∈ c'.options,
        (∃ nm ∈ o.names, nm.raw ≠ []) ∧ o.description ≠ []) with
  | mk n d u opts subs v ihsubs =>
    intro c' hsub o ho
    cases hsub with
    | refl =>
      rw [fix_command_mk] at ho
      have : o ∈ Postprocessor.filter_invalid_options
          (Postprocessor.deduplicate_options opts) := ho
      exact validOpt_spec o (List.of_mem_filter this)
    | step h1 h2 =>
      rw [fix_command_mk] at h1
      exact ihsubs _ h1 c' h2 o ho
  | nil =>
    rename_i d hd c' hsub o ho
    exact absurd hd (by simp [Postprocessor.fixSubs])
  | cons x xs ih1 ih2 =>
    rename_i d hd c' hsub o ho
    rcases List.mem_cons.mp hd with h1 | h2
    · exact ih1 c' (h1 ▸ hsub) o ho
    · exact ih2 d h2 c' hsub o ho

/-- Witness for C3: the invariant instantiated at a concrete tree through
the theorem. -/
theorem fix_command_invariant_witness :
    (⟨[⟨['-', 'v'], .shortType⟩], [], ['v']⟩ : Opt) ∈
      (Postprocessor.fix_command
        (Command.mk ['r'] [] []
          [⟨[⟨['-', 'v'], .shortType⟩], [], ['v']⟩] [] [])).options ∧
    ((∃ nm ∈ (⟨[⟨['-', 'v'], .shortType⟩], [], ['v']⟩ : Opt).names,
        nm.raw ≠ []) ∧
      (⟨[⟨['-', 'v'], .shortType⟩], [], ['v']⟩ : Opt).description ≠ []) :=
  ⟨by decide,
   fix_command_invariant
     (Command.mk ['r'] [] [] [⟨[⟨['-', 'v'], .shortType⟩], [], ['v']⟩] [] [])
     _ (IsSubtree.refl _) _ (by decide)⟩

/-- Pairwise-distinct dedup keys. -/
def KeyDistinct (l : List Opt) : Prop :=
  l.Pairwise fun a b => Postprocessor.keyOf a ≠ Postprocessor.keyOf b

theorem dedupGo_cons_not_mem {seen : List (List Char × List Char)} {o : Opt}
    {os : List Opt} (h : Postprocessor.keyOf o ∉ seen) :
    Postprocessor.dedupGo seen (o :: os) =
      o :: Postprocessor.dedupGo (Postprocessor.keyOf o :: seen) os := by
  unfold Postprocessor.dedupGo
  rw [if_neg h]
  cases os <;> rfl

theorem dedupGo_cons_mem {seen : List (List Char × List Char)} {o : Opt}
    {os : List Opt} (h : Postprocessor.keyOf o ∈ seen) :
    Postprocessor.dedupGo seen (o :: os) = Postprocessor.dedupGo seen os := by
  unfold Postprocessor.dedupGo
  rw [if_pos h]
  cases os <;> rfl

theorem dedupGo_key_not_mem (l : List Opt) :
    ∀ seen, ∀ o ∈ Postprocessor.dedupGo seen l,
      Postprocessor.keyOf o ∉ seen := by
  induction l with
  | nil => intro seen o ho; exact absurd ho (by simp [Postprocessor.dedupGo])
  | cons x xs ih =>
    intro seen o ho
    unfold Postprocessor.dedupGo at ho
    split_ifs at ho with hmem
    · exact ih seen o ho
    · rcases List.mem_cons.mp ho with h1 | h2
      · subst h1; exact hmem
      · intro hcontra
        exact ih _ o h2 (List.mem_cons_of_mem _ hcontra)

theorem dedupGo_keyDistinct (l : List Opt) :
    ∀ seen, KeyDistinct (Postprocessor.dedupGo seen l) := by
  induction l with
  | nil => intro seen; exact List.Pairwise.nil
  | cons x xs ih =>
    intro seen
    unfold Postprocessor.dedupGo
    split_ifs with hmem
    · exact ih seen
    · refine List.Pairwise.cons ?_ (ih _)
      intro b hb hEq
      exact dedupGo_key_not_mem xs _ b hb (by rw [← hEq]; simp)

theorem dedupGo_eq_self (l : List Opt) :
    ∀ seen, (∀ o ∈ l, Postprocessor.keyOf o ∉ seen) → KeyDistinct l →
      Postprocessor.dedupGo seen l = l := by
  induction l with
  | nil => intro seen _ _; rfl
  | cons x xs ih =>
    intro seen hseen hdist
    unfold Postprocessor.dedupGo
    rw [if_neg (hseen x (by simp))]
    congr 1
    refine ih _ (fun o ho hmem => ?_) (List.Pairwise.of_cons hdist)
    rcases List.mem_cons.mp hmem with h1 | h2
    · exact (List.pairwise_cons.mp hdist).1 o ho h1.symm
    · exact hseen o (List.mem_cons_of_mem x ho) h2

theorem filter_validOpt_idem (l : List Opt) :
    (l.filter Postprocessor.validOpt).filter Postprocessor.validOpt =
      l.filter Postprocessor.validOpt := by
  induction l with
  | nil => rfl
  | cons x xs ih =>
    by_cases hx : Postprocessor.validOpt x = true
    · rw [List.filter_cons_of_pos hx, List.filter_cons_of_pos hx, ih]
    · rw [List.filter_cons_of_neg (by simpa using hx), ih]

theorem dedup_filter_idem (opts : List Opt) :
    Postprocessor.filter_invalid_options (Postprocessor.deduplicate_options
      (Postprocessor.filter_invalid_options
        (Postprocessor.deduplicate_options opts))) =
    Postprocessor.filter_invalid_options
      (Postprocessor.deduplicate_options opts) := by
  unfold Postprocessor.filter_invalid_options Postprocessor.deduplicate_options
  rw [dedupGo_eq_self _ [] (by simp)
    (List.Pairwise.filter _ (dedupGo_keyDistinct opts []))]
  exact filter_validOpt_idem _

/-- C4: `fix_command` is idempotent on every command tree. -/
theorem fix_command_idempotent : ∀ c : Command,
    Postprocessor.fix_command (Postprocessor.fix_command c) =
      Postprocessor.fix_command c := by
  intro c
  induction c using Command.rec
    (motive_2 := fun subs => Postprocessor.fixSubs (Postprocessor.fixSubs subs) =
      Postprocessor.fixSubs subs) with
  | mk n d u opts subs v ihsubs =>
    rw [fix_command_mk, fix_command_mk, ihsubs, dedup_filter_idem]
  | nil => rfl
  | cons x xs ih1 ih2 =>
    show Postprocessor.fixSubs
        (Postprocessor.fix_command x :: Postprocessor.fixSubs xs) = _
    rw [show Postprocessor.fixSubs
        (Postprocessor.fix_command x :: Postprocessor.fixSubs xs) =
      Postprocessor.fix_command (Postprocessor.fix_command x) ::
        Postprocessor.fixSubs (Postprocessor.fixSubs xs) from rfl, ih1, ih2]
    rfl

/-! ## Claim C5: dedup key semantics -/

/-- Insert into a sorted list of strings (helper for sorting raw texts). -/
def insertStr (a : List Char) : List (List Char) → List (List Char)
  | [] => [a]
  | b :: bs => if strLe a b then a :: b :: bs else b :: insertStr a bs

/-- Sort a list of strings lexicographically (used only to state the
claim's notion of identical sorted name raw-texts). -/
def sortStrs : List (List Char) → List (List Char)
  | [] => []
  | a :: rest => insertStr a (sortStrs rest)

/-- C5, amended: the dedup key of `fix_command` is the pipe-joined name raw
texts in stored order together with the argument. For a command whose
options are two Opt values with equal keys but different descriptions,
the two collapse into one and the first occurrence is kept — provided
the first occurrence also passes the validity filter (non-empty first
name and non-empty description), since filtering runs right after
deduplication. -/
theorem dedup_key_semantics (n d u v : List Char) (subs : List Command)
    (o1 o2 : Opt) (hkey : Postprocessor.keyOf o1 = Postprocessor.keyOf o2)
    (_hdesc : o1.description ≠ o2.description)
    (hvalid : Postprocessor.validOpt o1 = true) :
    (Postprocessor.fix_command (Command.mk n d u [o1, o2] subs v)).options =
      [o1] := by
  rw [fix_command_mk]
  show Postprocessor.filter_invalid_options
    (Postprocessor.deduplicate_options [o1, o2]) = [o1]
  rw [show Postprocessor.deduplicate_options [o1, o2] =
    Postprocessor.dedupGo [] [o1, o2] from rfl]
  rw [dedupGo_cons_not_mem (by simp), dedupGo_cons_mem (by rw [← hkey]; simp)]
  show Postprocessor.filter_invalid_options [o1] = [o1]
  unfold Postprocessor.filter_invalid_options
  rw [List.filter_cons_of_pos hvalid]
  rfl

/-- Witness for C5 (amended): two same-keyed options with different
descriptions collapse to the first through the theorem. -/
theorem dedup_key_semantics_witness :
    (Postprocessor.fix_command (Command.mk ['c'] [] []
      [⟨[⟨['-', 'a'], .shortType⟩], [], ['x']⟩,
       ⟨[⟨['-', 'a'], .shortType⟩], [], ['y']⟩] [] [])).options =
      [⟨[⟨['-', 'a'], .shortType⟩], [], ['x']⟩] :=
  dedup_key_semantics ['c'] [] [] [] []
    ⟨[⟨['-', 'a'], .shortType⟩], [], ['x']⟩
    ⟨[⟨['-', 'a'], .shortType⟩], [], ['y']⟩
    (by decide) (by decide) (by decide)

/-- Counterexample for C5 as stated: two options whose SORTED name raw
texts and argument are identical and whose descriptions differ do NOT
collapse when their stored name orders differ, because the code joins
the raw texts in stored order without sorting — both survive
`fix_command`. -/
theorem dedup_key_counterexample :
    sortStrs ((⟨[⟨['-', 'a'], .shortType⟩, ⟨['-', 'b'], .shortType⟩], [],
        ['x']⟩ : Opt).names.map OptName.raw) =
      sortStrs ((⟨[⟨['-', 'b'], .shortType⟩, ⟨['-', 'a'], .shortType⟩], [],
        ['y']⟩ : Opt).names.map OptName.raw) ∧
    (⟨[⟨['-', 'a'], .shortType⟩, ⟨['-', 'b'], .shortType⟩], [],
        ['x']⟩ : Opt).argument =
      (⟨[⟨['-', 'b'], .shortType⟩, ⟨['-', 'a'], .shortType⟩], [],
        ['y']⟩ : Opt).argument ∧
    (⟨[⟨['-', 'a'], .shortType⟩, ⟨['-', 'b'], .shortType⟩], [],
        ['x']⟩ : Opt).description ≠
      (⟨[⟨['-', 'b'], .shortType⟩, ⟨['-', 'a'], .shortType⟩], [],
        ['y']⟩ : Opt).description ∧
    (Postprocessor.fix_command (Command.mk ['c'] [] []
      [⟨[⟨['-', 'a'], .shortType⟩, ⟨['-', 'b'], .shortType⟩], [], ['x']⟩,
       ⟨[⟨['-', 'b'], .shortType⟩, ⟨['-', 'a'], .shortType⟩], [], ['y']⟩]
      [] [])).options =
      [⟨[⟨['-', 'a'], .shortType⟩, ⟨['-', 'b'], .shortType⟩], [], ['x']⟩,
       ⟨[⟨['-', 'b'], .shortType⟩, ⟨['-', 'a'], .shortType⟩], [], ['y']⟩] := by
  refine ⟨by decide, by decide, by decide, by decide⟩

end Hcl
